import Mathlib

/-!
# Verification of the `utf8-zero` incremental UTF-8 decoder

Shallow embedding of `src/lib.rs` (the crate's single-shot `decode`, the
`Incomplete` continuation value with `try_complete` / `try_complete_offsets`)
together with the UTF-8 validation routine of Rust's standard library
(`core::str::from_utf8` / `run_utf8_validation`), which `decode` and
`try_complete_offsets` call.

Bytes are modelled as `Nat` (a byte slice is a `List Nat`); text is identified
with its byte list.  Operations that can panic in Rust (out-of-range slicing,
`checked_sub(..).unwrap()`, `copy_from_slice` with mismatched lengths) are
modelled by returning `Option`, with `none` standing for a panic.
-/

namespace Utf8Zero

/-- Width table `UTF8_CHAR_WIDTH` of `core::str`: the total byte length of a
UTF-8 sequence headed by byte `b` (0 for bytes that can never start one). -/
def utf8CharWidth (b : Nat) : Nat :=
  if b < 0x80 then 1
  else if b < 0xC2 then 0
  else if b < 0xE0 then 2
  else if b < 0xF0 then 3
  else if b < 0xF5 then 4
  else 0

/-- `b` is a UTF-8 continuation byte, i.e. `(b as i8) < -64` in the Rust source. -/
def isCont (b : Nat) : Bool := 0x80 ≤ b && b < 0xC0

/-- Allowed second byte of a three-byte sequence headed by `first`
(the `(first, next!())` match of `run_utf8_validation` for width 3). -/
def validThreeSecond (first c : Nat) : Bool :=
  if first = 0xE0 then 0xA0 ≤ c && c ≤ 0xBF
  else if 0xE1 ≤ first && first ≤ 0xEC then 0x80 ≤ c && c ≤ 0xBF
  else if first = 0xED then 0x80 ≤ c && c ≤ 0x9F
  else if 0xEE ≤ first && first ≤ 0xEF then 0x80 ≤ c && c ≤ 0xBF
  else false

/-- Allowed second byte of a four-byte sequence headed by `first`
(the `(first, next!())` match of `run_utf8_validation` for width 4). -/
def validFourSecond (first c : Nat) : Bool :=
  if first = 0xF0 then 0x90 ≤ c && c ≤ 0xBF
  else if 0xF1 ≤ first && first ≤ 0xF3 then 0x80 ≤ c && c ≤ 0xBF
  else if first = 0xF4 then 0x80 ≤ c && c ≤ 0x8F
  else false

/-- Outcome of validating the single UTF-8 sequence starting at a lead byte:
complete codepoint of width `w`, definite error with erroring-span length `k`,
or the input ran out mid-sequence. -/
inductive Head where
  | ok (w : Nat)
  | bad (k : Nat)
  | short
deriving DecidableEq

/-- One step of `run_utf8_validation`: classify the sequence headed by byte `b`
followed by `rest`.  Mirrors the Rust `match utf8_char_width(first)` block,
including which positions report `err!(Some(k))` versus `err!(None)`. -/
def headResult (b : Nat) (rest : List Nat) : Head :=
  if b < 0x80 then .ok 1
  else if utf8CharWidth b = 2 then
    match rest with
    | [] => .short
    | c1 :: _ => if isCont c1 then .ok 2 else .bad 1
  else if utf8CharWidth b = 3 then
    match rest with
    | [] => .short
    | c1 :: rest1 =>
      if validThreeSecond b c1 then
        match rest1 with
        | [] => .short
        | c2 :: _ => if isCont c2 then .ok 3 else .bad 2
      else .bad 1
  else if utf8CharWidth b = 4 then
    match rest with
    | [] => .short
    | c1 :: rest1 =>
      if validFourSecond b c1 then
        match rest1 with
        | [] => .short
        | c2 :: rest2 =>
          if isCont c2 then
            match rest2 with
            | [] => .short
            | c3 :: _ => if isCont c3 then .ok 4 else .bad 3
          else .bad 2
      else .bad 1
  else .bad 1

/-- Add `n` to the `valid_up_to` component of a validation outcome
(re-basing an error found after `n` already-validated bytes). -/
def shift (n : Nat) : Option (Nat × Option Nat) → Option (Nat × Option Nat)
  | none => none
  | some (v, e) => some (n + v, e)

/-- Rust `core::str::run_utf8_validation` over a byte list:
`none` when the whole list is valid UTF-8, otherwise
`some (valid_up_to, error_len)` exactly as in `core::str::Utf8Error`. -/
def runUtf8Validation : List Nat → Option (Nat × Option Nat)
  | [] => none
  | b :: rest =>
    if b < 0x80 then shift 1 (runUtf8Validation rest)
    else if utf8CharWidth b = 2 then
      match rest with
      | [] => some (0, none)
      | c1 :: rest1 =>
        if isCont c1 then shift 2 (runUtf8Validation rest1) else some (0, some 1)
    else if utf8CharWidth b = 3 then
      match rest with
      | [] => some (0, none)
      | c1 :: rest1 =>
        if validThreeSecond b c1 then
          match rest1 with
          | [] => some (0, none)
          | c2 :: rest2 =>
            if isCont c2 then shift 3 (runUtf8Validation rest2) else some (0, some 2)
        else some (0, some 1)
    else if utf8CharWidth b = 4 then
      match rest with
      | [] => some (0, none)
      | c1 :: rest1 =>
        if validFourSecond b c1 then
          match rest1 with
          | [] => some (0, none)
          | c2 :: rest2 =>
            if isCont c2 then
              match rest2 with
              | [] => some (0, none)
              | c3 :: rest3 =>
                if isCont c3 then shift 4 (runUtf8Validation rest3) else some (0, some 3)
            else some (0, some 2)
        else some (0, some 1)
    else some (0, some 1)

theorem headResult_ok_bounds {b : Nat} {rest : List Nat} {w : Nat}
    (h : headResult b rest = .ok w) : 1 ≤ w ∧ w ≤ 4 ∧ w - 1 ≤ rest.length := by
  rcases rest with _ | ⟨c1, _ | ⟨c2, _ | ⟨c3, rest3⟩⟩⟩ <;>
    simp only [headResult] at h <;>
    split_ifs at h <;> simp_all <;> omega

theorem headResult_ok_width {b : Nat} {rest : List Nat} {w : Nat}
    (h : headResult b rest = .ok w) : utf8CharWidth b = w := by
  rcases rest with _ | ⟨c1, _ | ⟨c2, _ | ⟨c3, rest3⟩⟩⟩ <;>
    simp only [headResult] at h <;>
    split_ifs at h <;> simp_all [utf8CharWidth]

theorem headResult_short_width {b : Nat} {rest : List Nat}
    (h : headResult b rest = .short) :
    2 ≤ utf8CharWidth b ∧ rest.length + 1 < utf8CharWidth b := by
  rcases rest with _ | ⟨c1, _ | ⟨c2, _ | ⟨c3, rest3⟩⟩⟩ <;>
    simp only [headResult] at h <;>
    split_ifs at h <;> simp_all

theorem headResult_ok_append {b : Nat} {rest : List Nat} {w : Nat} (t : List Nat)
    (h : headResult b rest = .ok w) : headResult b (rest ++ t) = .ok w := by
  rcases rest with _ | ⟨c1, _ | ⟨c2, _ | ⟨c3, rest3⟩⟩⟩ <;>
    simp only [headResult, List.nil_append, List.cons_append] at h ⊢ <;>
    split_ifs at h ⊢ <;> simp_all

theorem headResult_bad_bounds {b : Nat} {rest : List Nat} {k : Nat}
    (h : headResult b rest = .bad k) : 1 ≤ k ∧ k ≤ 3 ∧ k ≤ rest.length + 1 := by
  rcases rest with _ | ⟨c1, _ | ⟨c2, _ | ⟨c3, rest3⟩⟩⟩ <;>
    simp only [headResult] at h <;>
    split_ifs at h <;> simp_all <;> omega

theorem headResult_bad_append {b : Nat} {rest : List Nat} {k : Nat} (t : List Nat)
    (h : headResult b rest = .bad k) : headResult b (rest ++ t) = .bad k := by
  rcases rest with _ | ⟨c1, _ | ⟨c2, _ | ⟨c3, rest3⟩⟩⟩ <;>
    simp only [headResult, List.nil_append, List.cons_append] at h ⊢ <;>
    split_ifs at h ⊢ <;> simp_all

theorem headResult_short_len {b : Nat} {rest : List Nat}
    (h : headResult b rest = .short) : rest.length ≤ 2 := by
  rcases rest with _ | ⟨c1, _ | ⟨c2, _ | ⟨c3, rest3⟩⟩⟩ <;>
    simp only [headResult] at h <;>
    split_ifs at h <;> simp_all

theorem headResult_short_ok {b : Nat} {rest t : List Nat} {w : Nat}
    (h : headResult b rest = .short) (h2 : headResult b (rest ++ t) = .ok w) :
    rest.length + 2 ≤ w := by
  have h1 := headResult_short_width h
  have h3 := headResult_ok_width h2
  omega

set_option maxHeartbeats 1600000 in
theorem headResult_short_bad {b : Nat} {rest t : List Nat} {k : Nat}
    (h : headResult b rest = .short) (h2 : headResult b (rest ++ t) = .bad k) :
    rest.length + 1 ≤ k := by
  rcases rest with _ | ⟨c1, _ | ⟨c2, _ | ⟨c3, rest3⟩⟩⟩ <;>
    rcases t with _ | ⟨d1, _ | ⟨d2, _ | ⟨d3, t3⟩⟩⟩ <;>
    simp only [headResult, List.nil_append, List.cons_append, List.append_nil] at h h2 <;>
    split_ifs at h h2 <;> simp_all <;> omega

theorem headResult_ok_take {b : Nat} {rest : List Nat} {w : Nat}
    (h : headResult b rest = .ok w) : headResult b (rest.take (w - 1)) = .ok w := by
  rcases rest with _ | ⟨c1, _ | ⟨c2, _ | ⟨c3, rest3⟩⟩⟩ <;>
    simp only [headResult] at h <;>
    split_ifs at h <;> cases h <;> simp_all [headResult]

@[simp] theorem shift_none (n : Nat) : shift n none = none := rfl

@[simp] theorem shift_some (n v : Nat) (e : Option Nat) :
    shift n (some (v, e)) = some (n + v, e) := rfl

@[simp] theorem shift_zero (r : Option (Nat × Option Nat)) : shift 0 r = r := by
  cases r with
  | none => rfl
  | some p => obtain ⟨v, e⟩ := p; simp [shift]

theorem shift_shift (m n : Nat) (r : Option (Nat × Option Nat)) :
    shift m (shift n r) = shift (m + n) r := by
  cases r with
  | none => rfl
  | some p => obtain ⟨v, e⟩ := p; simp [shift]; omega

theorem shift_eq_some {n v : Nat} {e : Option Nat} {r : Option (Nat × Option Nat)}
    (h : shift n r = some (v, e)) : ∃ v1, r = some (v1, e) ∧ v = n + v1 := by
  cases r with
  | none => simp [shift] at h
  | some p =>
    obtain ⟨v1, e1⟩ := p
    simp only [shift_some, Option.some.injEq, Prod.mk.injEq] at h
    exact ⟨v1, by rw [h.2], by omega⟩

/-- One-step unfolding of `run_utf8_validation`: validating `b :: rest` first
classifies the sequence headed by `b`, then continues after a complete
codepoint. -/
theorem runUtf8Validation_cons (b : Nat) (rest : List Nat) :
    runUtf8Validation (b :: rest) =
      match headResult b rest with
      | .ok w => shift w (runUtf8Validation (List.drop (w - 1) rest))
      | .bad k => some (0, some k)
      | .short => some (0, none) := by
  rw [runUtf8Validation.eq_def]
  unfold headResult
  by_cases h1 : b < 0x80
  · simp [h1, List.drop]
  · by_cases h2 : utf8CharWidth b = 2
    · cases rest with
      | nil => simp [h1, h2]
      | cons c1 rest1 =>
        by_cases hc : isCont c1
        · simp [h1, h2, hc, List.drop]
        · simp [h1, h2, hc]
    · by_cases h3 : utf8CharWidth b = 3
      · cases rest with
        | nil => simp [h1, h2, h3]
        | cons c1 rest1 =>
          by_cases hs : validThreeSecond b c1
          · cases rest1 with
            | nil => simp [h1, h2, h3, hs]
            | cons c2 rest2 =>
              by_cases hc2 : isCont c2
              · simp [h1, h2, h3, hs, hc2, List.drop]
              · simp [h1, h2, h3, hs, hc2]
          · simp [h1, h2, h3, hs]
      · by_cases h4 : utf8CharWidth b = 4
        · cases rest with
          | nil => simp [h1, h2, h3, h4]
          | cons c1 rest1 =>
            by_cases hs : validFourSecond b c1
            · cases rest1 with
              | nil => simp [h1, h2, h3, h4, hs]
              | cons c2 rest2 =>
                by_cases hc2 : isCont c2
                · cases rest2 with
                  | nil => simp [h1, h2, h3, h4, hs, hc2]
                  | cons c3 rest3 =>
                    by_cases hc3 : isCont c3
                    · simp [h1, h2, h3, h4, hs, hc2, hc3, List.drop]
                    · simp [h1, h2, h3, h4, hs, hc2, hc3]
                · simp [h1, h2, h3, h4, hs, hc2]
            · simp [h1, h2, h3, h4, hs]
        · simp [h1, h2, h3, h4]

/-- The `valid_up_to` and `error_len` values reported by the validator are
within bounds: `error_len ∈ {1,2,3}` fits inside the input after the valid
prefix, and an unknown-length error (`none`) happens only at the very end,
with 1 to 3 bytes left. -/
theorem validation_bounds : ∀ (l : List Nat) (v : Nat) (e : Option Nat),
    runUtf8Validation l = some (v, e) →
    v ≤ l.length ∧ (∀ k, e = some k → 1 ≤ k ∧ k ≤ 3 ∧ v + k ≤ l.length) ∧
      (e = none → v < l.length ∧ l.length ≤ v + 3)
  | [], v, e, h => by simp [runUtf8Validation] at h
  | b :: rest, v, e, h => by
    rw [runUtf8Validation_cons] at h
    cases hh : headResult b rest with
    | ok w =>
      rw [hh] at h
      obtain ⟨v1, hv, rfl⟩ := shift_eq_some h
      have ih := validation_bounds (List.drop (w - 1) rest) v1 e hv
      have hb := headResult_ok_bounds hh
      have hd : (List.drop (w - 1) rest).length = rest.length - (w - 1) :=
        List.length_drop _ _
      rw [hd] at ih
      refine ⟨by simp; omega, fun k hk => ?_, fun hk => ?_⟩
      · have := ih.2.1 k hk; simp; omega
      · have := ih.2.2 hk; simp; omega
    | bad k =>
      rw [hh] at h
      have hb := headResult_bad_bounds hh
      obtain ⟨rfl, rfl⟩ : 0 = v ∧ (some k : Option Nat) = e := by
        have h1 := Option.some.inj h
        exact ⟨congrArg Prod.fst h1, congrArg Prod.snd h1⟩
      refine ⟨by simp, fun k' hk' => ?_, fun hk => by simp at hk⟩
      obtain rfl : k' = k := by simpa using hk'.symm
      simp; omega
    | short =>
      rw [hh] at h
      have hb := headResult_short_len hh
      obtain ⟨rfl, rfl⟩ : 0 = v ∧ (none : Option Nat) = e := by
        have h1 := Option.some.inj h
        exact ⟨congrArg Prod.fst h1, congrArg Prod.snd h1⟩
      refine ⟨by simp, fun k' hk' => by simp at hk', fun _ => by simp; omega⟩
termination_by l => l.length
decreasing_by simp [List.length_drop]; omega

theorem runUtf8Validation_cons_ok {b : Nat} {rest : List Nat} {w : Nat}
    (hh : headResult b rest = .ok w) :
    runUtf8Validation (b :: rest) =
      shift w (runUtf8Validation (List.drop (w - 1) rest)) := by
  rw [runUtf8Validation_cons, hh]

theorem runUtf8Validation_cons_bad {b : Nat} {rest : List Nat} {k : Nat}
    (hh : headResult b rest = .bad k) :
    runUtf8Validation (b :: rest) = some (0, some k) := by
  rw [runUtf8Validation_cons, hh]

theorem runUtf8Validation_cons_short {b : Nat} {rest : List Nat}
    (hh : headResult b rest = .short) :
    runUtf8Validation (b :: rest) = some (0, none) := by
  rw [runUtf8Validation_cons, hh]

/-- Splitting at the reported boundary: the prefix up to `valid_up_to` is
valid, and revalidating the suffix reproduces the error at offset 0. -/
theorem validation_split : ∀ (l : List Nat) (v : Nat) (e : Option Nat),
    runUtf8Validation l = some (v, e) →
    runUtf8Validation (l.take v) = none ∧ runUtf8Validation (l.drop v) = some (0, e)
  | [], v, e, h => by simp [runUtf8Validation] at h
  | b :: rest, v, e, h => by
    cases hh : headResult b rest with
    | ok w =>
      rw [runUtf8Validation_cons_ok hh] at h
      obtain ⟨v1, hv, rfl⟩ := shift_eq_some h
      have ih := validation_split (List.drop (w - 1) rest) v1 e hv
      have hb := headResult_ok_bounds hh
      have hsum : w + v1 = (w - 1 + v1) + 1 := by omega
      have hlen : (rest.take (w - 1)).length = w - 1 := by
        simp [List.length_take]; omega
      constructor
      · rw [hsum, List.take_succ_cons, List.take_add]
        rw [runUtf8Validation_cons_ok
          (headResult_ok_append _ (headResult_ok_take hh))]
        rw [List.drop_append_of_le_length (by simp [hlen]),
          List.drop_eq_nil_of_le (by simp [hlen]), List.nil_append, ih.1]
        rfl
      · rw [hsum, List.drop_succ_cons, ← List.drop_drop, ih.2]
    | bad k =>
      rw [runUtf8Validation_cons_bad hh] at h
      simp only [Option.some.injEq, Prod.mk.injEq] at h
      obtain ⟨rfl, rfl⟩ : 0 = v ∧ (some k : Option Nat) = e := h
      exact ⟨by simp [runUtf8Validation],
        by rw [List.drop_zero, runUtf8Validation_cons_bad hh]⟩
    | short =>
      rw [runUtf8Validation_cons_short hh] at h
      simp only [Option.some.injEq, Prod.mk.injEq] at h
      obtain ⟨rfl, rfl⟩ : 0 = v ∧ (none : Option Nat) = e := h
      exact ⟨by simp [runUtf8Validation],
        by rw [List.drop_zero, runUtf8Validation_cons_short hh]⟩
termination_by l => l.length
decreasing_by simp [List.length_drop]; omega

/-- Appending anything after a fully valid list re-bases validation of the
appended part by the valid list's length. -/
theorem validation_append_valid : ∀ (a t : List Nat),
    runUtf8Validation a = none →
    runUtf8Validation (a ++ t) = shift a.length (runUtf8Validation t)
  | [], t, _ => by simp
  | b :: rest, t, h => by
    cases hh : headResult b rest with
    | ok w =>
      rw [runUtf8Validation_cons_ok hh] at h
      have hv : runUtf8Validation (List.drop (w - 1) rest) = none := by
        cases hx : runUtf8Validation (List.drop (w - 1) rest) with
        | none => rfl
        | some p => obtain ⟨v1, e1⟩ := p; rw [hx] at h; simp [shift] at h
      have hb := headResult_ok_bounds hh
      have ih := validation_append_valid (List.drop (w - 1) rest) t hv
      simp only [List.cons_append]
      rw [runUtf8Validation_cons_ok (headResult_ok_append t hh),
        List.drop_append_of_le_length hb.2.2, ih, shift_shift]
      have hlen : (List.drop (w - 1) rest).length = rest.length - (w - 1) :=
        List.length_drop _ _
      rw [hlen]
      have hwl : w + (rest.length - (w - 1)) = (b :: rest).length := by
        simp; omega
      rw [hwl]
    | bad k => rw [runUtf8Validation_cons_bad hh] at h; simp at h
    | short => rw [runUtf8Validation_cons_short hh] at h; simp at h
termination_by a => a.length
decreasing_by simp [List.length_drop]; omega

/-- A definite error (known `error_len`) is stable under appending more
bytes: the erroring span never depends on later input. -/
theorem validation_append_bad : ∀ (a t : List Nat) (v k : Nat),
    runUtf8Validation a = some (v, some k) →
    runUtf8Validation (a ++ t) = some (v, some k)
  | [], t, v, k, h => by simp [runUtf8Validation] at h
  | b :: rest, t, v, k, h => by
    cases hh : headResult b rest with
    | ok w =>
      rw [runUtf8Validation_cons_ok hh] at h
      obtain ⟨v1, hv, rfl⟩ := shift_eq_some h
      have hb := headResult_ok_bounds hh
      have ih := validation_append_bad (List.drop (w - 1) rest) t v1 k hv
      simp only [List.cons_append]
      rw [runUtf8Validation_cons_ok (headResult_ok_append t hh),
        List.drop_append_of_le_length hb.2.2, ih]
      rfl
    | bad k' =>
      rw [runUtf8Validation_cons_bad hh] at h
      simp only [Option.some.injEq, Prod.mk.injEq, Option.some.injEq] at h
      obtain ⟨rfl, rfl⟩ : 0 = v ∧ k' = k := ⟨h.1, by simpa using h.2⟩
      simp only [List.cons_append]
      rw [runUtf8Validation_cons_bad (headResult_bad_append t hh)]
    | short => rw [runUtf8Validation_cons_short hh] at h; simp at h
termination_by a => a.length
decreasing_by simp [List.length_drop]; omega

/-- An unknown-length error at offset 0 means the very first sequence ran out
of input. -/
theorem validation_incomplete_head {b : Nat} {rest : List Nat}
    (h : runUtf8Validation (b :: rest) = some (0, none)) :
    headResult b rest = .short := by
  cases hh : headResult b rest with
  | ok w =>
    rw [runUtf8Validation_cons_ok hh] at h
    obtain ⟨v1, hv, hveq⟩ := shift_eq_some h
    have hb := headResult_ok_bounds hh
    omega
  | bad k => rw [runUtf8Validation_cons_bad hh] at h; simp at h
  | short => rfl

/-- Extending a consistent-but-incomplete list: any new boundary lies strictly
beyond the old bytes, and any definite error at offset 0 spans at least all of
them. -/
theorem validation_short_append {b : Nat} {rest t : List Nat} {v : Nat}
    {e : Option Nat}
    (ha : runUtf8Validation (b :: rest) = some (0, none))
    (h : runUtf8Validation ((b :: rest) ++ t) = some (v, e)) :
    (0 < v → rest.length + 1 < v) ∧
      (v = 0 → ∀ k, e = some k → rest.length + 1 ≤ k) := by
  have hh := validation_incomplete_head ha
  rw [List.cons_append] at h
  cases hh2 : headResult b (rest ++ t) with
  | ok w =>
    rw [runUtf8Validation_cons_ok hh2] at h
    obtain ⟨v1, hv, rfl⟩ := shift_eq_some h
    have hgt := headResult_short_ok hh hh2
    exact ⟨fun _ => by omega, fun hv0 => by omega⟩
  | bad k' =>
    rw [runUtf8Validation_cons_bad hh2] at h
    simp only [Option.some.injEq, Prod.mk.injEq] at h
    obtain ⟨rfl, rfl⟩ : 0 = v ∧ (some k' : Option Nat) = e := h
    have hge := headResult_short_bad hh hh2
    refine ⟨fun hv0 => by omega, fun _ k hk => ?_⟩
    obtain rfl : k = k' := by simpa using hk.symm
    exact hge
  | short =>
    rw [runUtf8Validation_cons_short hh2] at h
    simp only [Option.some.injEq, Prod.mk.injEq] at h
    obtain ⟨rfl, rfl⟩ : 0 = v ∧ (none : Option Nat) = e := h
    exact ⟨fun hv0 => by omega, fun _ k hk => by simp at hk⟩

/-- `valid_up_to` is maximal: no strictly longer prefix validates. -/
theorem validation_boundary_max {l : List Nat} {v : Nat} {e : Option Nat}
    (h : runUtf8Validation l = some (v, e)) {j : Nat} (hj1 : v < j)
    (hj2 : j ≤ l.length) : runUtf8Validation (l.take j) ≠ none := by
  intro hval
  have happ := validation_append_valid (l.take j) (l.drop j) hval
  rw [List.take_append_drop, h] at happ
  have hlen : (l.take j).length = j := by simp [List.length_take]; omega
  rw [hlen] at happ
  obtain ⟨v1, _, hveq⟩ := shift_eq_some happ.symm
  omega

/-- The `Incomplete` struct of `src/lib.rs`: the public fixed 4-byte `buffer`
(modelled as a list, of length 4 for every value safe Rust can build) plus the
occupied length `buffer_len` (a `u8`). -/
structure Incomplete where
  buffer : List Nat
  buffer_len : Nat
deriving DecidableEq, Repr

/-- The bytes currently held by an `Incomplete`, i.e. `buffer[..buffer_len]`. -/
def Incomplete.bytes (self : Incomplete) : List Nat :=
  self.buffer.take self.buffer_len

/-- `Incomplete::empty()`. -/
def Incomplete.empty : Incomplete :=
  { buffer := [0, 0, 0, 0], buffer_len := 0 }

/-- `Incomplete::is_empty()`. -/
def Incomplete.is_empty (self : Incomplete) : Bool :=
  self.buffer_len = 0

/-- `Incomplete::new(bytes)`: copy `bytes` into the front of a zeroed 4-byte
buffer.  `buffer[..len].copy_from_slice(bytes)` panics when `bytes` is longer
than 4, modelled by `none`. -/
def Incomplete.new (bytes : List Nat) : Option Incomplete :=
  if bytes.length ≤ 4 then
    some { buffer := bytes ++ List.replicate (4 - bytes.length) 0,
           buffer_len := bytes.length }
  else none

/-- Result of `decode()`: `Ok` text, or one of the two `DecodeError`
variants (`Invalid` with its three slices, `Incomplete` with the suffix). -/
inductive DecodeResult where
  | ok (text : List Nat)
  | invalid ( valid_prefix invalid_sequence remaining_input : List Nat)
  | incomplete ( valid_prefix : List Nat) (incomplete_suffix : Incomplete)
deriving DecidableEq, Repr

/-- `decode()` from `src/lib.rs`: run `str::from_utf8`; on error split at
`valid_up_to`, then per `error_len` either split off the invalid sequence or
package the trailing bytes with `Incomplete::new`.  Out-of-range slicing and
`Incomplete::new` panics (never reached) are modelled by `none`. -/
def decode (input : List Nat) : Option DecodeResult :=
  match runUtf8Validation input with
  | none => some (.ok input)
  | some (valid_up_to, error_len) =>
    if valid_up_to ≤ input.length then
      match error_len with
      | some invalid_sequence_length =>
        if invalid_sequence_length ≤ (input.drop valid_up_to).length then
          some (.invalid (input.take valid_up_to)
            ((input.drop valid_up_to).take invalid_sequence_length)
            ((input.drop valid_up_to).drop invalid_sequence_length))
        else none
      | none =>
        match Incomplete.new (input.drop valid_up_to) with
        | some inc => some (.incomplete (input.take valid_up_to) inc)
        | none => none
    else none

/-- `Incomplete::try_complete_offsets`: copy as much of `input` as fits after
the buffered bytes, revalidate the spliced prefix with `str::from_utf8`, and
classify.  The slice `&mut self.buffer[initial_buffer_len..]` and the two
`checked_sub(initial_buffer_len).unwrap()` calls panic on unreachable states,
modelled by `none`.  Returns the mutated `Incomplete` together with
`(consumed_from_input, opt_result)`; `some true` stands for `Some(Ok(()))`
and `some false` for `Some(Err(()))`. -/
def Incomplete.tryCompleteOffsets (self : Incomplete) (input : List Nat) :
    Option (Incomplete × Nat × Option Bool) :=
  let initial_buffer_len := self.buffer_len
  if initial_buffer_len ≤ self.buffer.length then
    let copied_from_input :=
      min (self.buffer.length - initial_buffer_len) input.length
    let buffer1 := self.buffer.take initial_buffer_len
      ++ input.take copied_from_input
      ++ self.buffer.drop (initial_buffer_len + copied_from_input)
    let spliced := buffer1.take (initial_buffer_len + copied_from_input)
    match runUtf8Validation spliced with
    | none =>
      some ({ buffer := buffer1, buffer_len := spliced.length },
        copied_from_input, some true)
    | some (valid_up_to, error_len) =>
      if 0 < valid_up_to then
        if initial_buffer_len ≤ valid_up_to then
          some ({ buffer := buffer1, buffer_len := valid_up_to },
            valid_up_to - initial_buffer_len, some true)
        else none
      else
        match error_len with
        | some invalid_sequence_length =>
          if initial_buffer_len ≤ invalid_sequence_length then
            some ({ buffer := buffer1, buffer_len := invalid_sequence_length },
              invalid_sequence_length - initial_buffer_len, some false)
          else none
        | none =>
          some ({ buffer := buffer1, buffer_len := spliced.length },
            copied_from_input, none)
  else none

/-- The `Result<&str, &[u8]>` inside `try_complete`'s return value: decoded
text, or the bytes of a confirmed invalid sequence. -/
inductive CompleteResult where
  | text (bytes : List Nat)
  | invalid (bytes : List Nat)
deriving DecidableEq, Repr

/-- `Incomplete::try_complete`: wrap `try_complete_offsets`; on a definite
result, take the buffer contents (`take_buffer`, resetting `buffer_len` to 0)
and pair them with the uncopied remainder `&input[consumed..]` of the new
input (an out-of-range panic, never reached, is modelled by `none`). -/
def Incomplete.tryComplete (self : Incomplete) (input : List Nat) :
    Option (Incomplete × Option (CompleteResult × List Nat)) :=
  match self.tryCompleteOffsets input with
  | none => none
  | some (self1, consumed, opt_result) =>
    match opt_result with
    | none => some (self1, none)
    | some flavor =>
      if consumed ≤ input.length then
        let remaining_input := input.drop consumed
        let result_bytes := self1.buffer.take self1.buffer_len
        let self2 := { self1 with buffer_len := 0 }
        some (self2, some
          (if flavor then .text result_bytes else .invalid result_bytes,
            remaining_input))
      else none

example : decode [0xC3] =
    some (.incomplete [] ⟨[0xC3, 0, 0, 0], 1⟩) := by decide
example : decode [0x68, 0xC0, 0x77] =
    some (.invalid [0x68] [0xC0] [0x77]) := by decide
example : Incomplete.tryComplete ⟨[0xC3, 0, 0, 0], 1⟩ [0xA9, 0x41, 0x42] =
    some (⟨[0xC3, 0xA9, 0x41, 0x42], 0⟩,
      some (.text [0xC3, 0xA9, 0x41, 0x42], [])) := by decide
example : Incomplete.tryComplete ⟨[0xF0, 0, 0, 0], 1⟩ [0x90, 0xFF] =
    some (⟨[0xF0, 0x90, 0xFF, 0], 0⟩,
      some (.invalid [0xF0, 0x90], [0xFF])) := by decide
example : Incomplete.tryComplete ⟨[0, 0, 0, 0], 5⟩ [] = none := by decide

example : runUtf8Validation [0x68, 0x65, 0x6C, 0x6C, 0x6F] = none := by decide
example : runUtf8Validation [0xC3, 0xA9] = none := by decide
example : runUtf8Validation [0xC3] = some (0, none) := by decide
example : runUtf8Validation [0x68, 0xC0, 0x77] = some (1, some 1) := by decide
example : runUtf8Validation [0xF0, 0x90, 0xFF] = some (0, some 2) := by decide
example : runUtf8Validation [0xE0, 0x80] = some (0, some 1) := by decide
example : runUtf8Validation [0xED, 0xA0, 0x80] = some (0, some 1) := by decide

/-- States of an `Incomplete` reachable through the library: the buffer is the
real 4-byte array, and the held bytes are either absent or a 1-to-3-byte
consistent incomplete prefix of a single codepoint. -/
def IncWf (inc : Incomplete) : Prop :=
  inc.buffer.length = 4 ∧
    (inc.buffer_len = 0 ∨
      (1 ≤ inc.buffer_len ∧ inc.buffer_len ≤ 3 ∧
        runUtf8Validation inc.bytes = some (0, none)))

instance (inc : Incomplete) : Decidable (IncWf inc) := by
  unfold IncWf; infer_instance

theorem decode_eq_ok {input : List Nat} (h : runUtf8Validation input = none) :
    decode input = some (.ok input) := by
  unfold decode; rw [h]

theorem decode_eq_invalid {input : List Nat} {v k : Nat}
    (h : runUtf8Validation input = some (v, some k)) :
    decode input = some (.invalid (input.take v)
      ((input.drop v).take k) ((input.drop v).drop k)) := by
  have hb := validation_bounds input v (some k) h
  have hvk := hb.2.1 k rfl
  have h1 : v ≤ input.length := hb.1
  have h2 : k ≤ (input.drop v).length := by
    rw [List.length_drop]; omega
  have h3 : k ≤ input.length - v := by omega
  unfold decode
  rw [h]
  simp [h1, h2, h3]

theorem decode_eq_incomplete {input : List Nat} {v : Nat}
    (h : runUtf8Validation input = some (v, none)) :
    decode input = some (.incomplete (input.take v)
      ⟨input.drop v ++ List.replicate (4 - (input.drop v).length) 0,
        (input.drop v).length⟩) := by
  have hb := (validation_bounds input v none h).2.2 rfl
  have h1 : v ≤ input.length := by omega
  have h2 : (input.drop v).length ≤ 4 := by
    rw [List.length_drop]; omega
  have h3 : input.length ≤ 4 + v := by omega
  unfold decode Incomplete.new
  rw [h]
  simp [h1, h2, h3]

theorem decode_isSome (input : List Nat) : (decode input).isSome := by
  cases hv : runUtf8Validation input with
  | none => rw [decode_eq_ok hv]; rfl
  | some p =>
    obtain ⟨v, e⟩ := p
    cases e with
    | some k => rw [decode_eq_invalid hv]; rfl
    | none => rw [decode_eq_incomplete hv]; rfl

theorem decode_ok_inv {input text : List Nat}
    (h : decode input = some (.ok text)) :
    runUtf8Validation input = none ∧ text = input := by
  cases hv : runUtf8Validation input with
  | none => rw [decode_eq_ok hv] at h; simp at h; exact ⟨rfl, h.symm⟩
  | some p =>
    obtain ⟨v, e⟩ := p
    cases e with
    | some k => rw [decode_eq_invalid hv] at h; simp at h
    | none => rw [decode_eq_incomplete hv] at h; simp at h

theorem decode_invalid_inv {input vp iv rem : List Nat}
    (h : decode input = some (.invalid vp iv rem)) :
    ∃ v k, runUtf8Validation input = some (v, some k) ∧
      vp = input.take v ∧ iv = (input.drop v).take k ∧
      rem = (input.drop v).drop k := by
  cases hv : runUtf8Validation input with
  | none => rw [decode_eq_ok hv] at h; simp at h
  | some p =>
    obtain ⟨v, e⟩ := p
    cases e with
    | some k =>
      rw [decode_eq_invalid hv] at h
      simp only [Option.some.injEq, DecodeResult.invalid.injEq] at h
      exact ⟨v, k, rfl, h.1.symm, h.2.1.symm, h.2.2.symm⟩
    | none => rw [decode_eq_incomplete hv] at h; simp at h

theorem decode_incomplete_inv {input vp : List Nat} {inc : Incomplete}
    (h : decode input = some (.incomplete vp inc)) :
    ∃ v, runUtf8Validation input = some (v, none) ∧
      vp = input.take v ∧
      inc = ⟨input.drop v ++ List.replicate (4 - (input.drop v).length) 0,
        (input.drop v).length⟩ := by
  cases hv : runUtf8Validation input with
  | none => rw [decode_eq_ok hv] at h; simp at h
  | some p =>
    obtain ⟨v, e⟩ := p
    cases e with
    | some k => rw [decode_eq_invalid hv] at h; simp at h
    | none =>
      rw [decode_eq_incomplete hv] at h
      simp only [Option.some.injEq, DecodeResult.incomplete.injEq] at h
      exact ⟨v, rfl, h.1.symm, h.2.symm⟩

/-- The bytes held by the suffix `decode` packages are exactly the input
bytes after the valid prefix. -/
theorem decode_incomplete_bytes {input vp : List Nat} {inc : Incomplete}
    (h : decode input = some (.incomplete vp inc)) :
    inc.bytes = input.drop vp.length ∧ vp.length ≤ input.length := by
  obtain ⟨v, hv, rfl, rfl⟩ := decode_incomplete_inv h
  have hb := (validation_bounds input v none hv).2.2 rfl
  have hlen : (input.take v).length = v := by
    rw [List.length_take]; omega
  rw [hlen]
  constructor
  · simp only [Incomplete.bytes]
    exact List.take_left' (by rfl)
  · omega

/-- Every suffix produced by `decode` is well-formed. -/
theorem decode_incomplete_wf {input vp : List Nat} {inc : Incomplete}
    (h : decode input = some (.incomplete vp inc)) : IncWf inc := by
  obtain ⟨v, hv, rfl, rfl⟩ := decode_incomplete_inv h
  have hb := (validation_bounds input v none hv).2.2 rfl
  have hsplit := (validation_split input v none hv).2
  have hdlen : (input.drop v).length = input.length - v := List.length_drop _ _
  constructor
  · simp [List.length_replicate]; omega
  · right
    refine ⟨by simp [hdlen]; omega, by simp [hdlen]; omega, ?_⟩
    have hbytes : (⟨input.drop v ++ List.replicate (4 - (input.drop v).length) 0,
        (input.drop v).length⟩ : Incomplete).bytes = input.drop v := by
      simp only [Incomplete.bytes]
      exact List.take_left' (by rfl)
    rw [hbytes]
    exact hsplit


theorem take_append_take {A I : List Nat} {m copied : Nat} (hm : m ≤ copied) :
    (A ++ I.take copied).take (A.length + m) = A ++ I.take m := by
  rw [List.take_append_eq_append_take, List.take_of_length_le (by omega)]
  congr 1
  have h1 : A.length + m - A.length = m := by omega
  rw [h1, List.take_take, min_eq_left hm]

/-- On a well-formed state, any error the spliced revalidation reports lies at
or beyond the already-buffered bytes: a positive boundary passes them all, and
a definite error at offset 0 spans at least all of them. -/
theorem wf_val_facts (inc : Incomplete) (I : List Nat) (hwf : IncWf inc)
    {copied : Nat} {v : Nat} {e : Option Nat}
    (hval : runUtf8Validation
      (inc.buffer.take inc.buffer_len ++ I.take copied) = some (v, e)) :
    (0 < v → inc.buffer_len ≤ v) ∧
      (v = 0 → ∀ k, e = some k → inc.buffer_len ≤ k) := by
  obtain ⟨h4, hwf2⟩ := hwf
  have hn4 : inc.buffer_len ≤ 4 := by
    rcases hwf2 with h0 | ⟨_, h3, _⟩ <;> omega
  have hAlen : (inc.buffer.take inc.buffer_len).length = inc.buffer_len := by
    rw [List.length_take]; omega
  rcases hwf2 with h0 | ⟨hge1, hle3, hvalB⟩
  · exact ⟨fun _ => by omega, fun _ _ _ => by omega⟩
  · have hne : inc.buffer.take inc.buffer_len ≠ [] := by
      intro hnil
      rw [hnil] at hAlen
      simp at hAlen
      omega
    obtain ⟨b, rest, hcons⟩ := List.exists_cons_of_ne_nil hne
    have hrlen : rest.length + 1 = inc.buffer_len := by
      have hl := congrArg List.length hcons
      rw [hAlen] at hl
      simp at hl
      omega
    simp only [Incomplete.bytes] at hvalB
    rw [hcons] at hvalB hval
    have hsa := validation_short_append hvalB hval
    exact ⟨fun hv => by have := hsa.1 hv; omega,
      fun hv k hk => by have := hsa.2 hv k hk; omega⟩

/-- Under well-formedness the panic paths of `try_complete_offsets` are
unreachable and the result is determined by validating the spliced bytes. -/
theorem tryCompleteOffsets_spec (inc : Incomplete) (I : List Nat)
    (hwf : IncWf inc) {copied : Nat}
    (hc : copied = min (4 - inc.buffer_len) I.length) {buffer1 : List Nat}
    (hb1 : buffer1 = inc.buffer.take inc.buffer_len ++ I.take copied
      ++ inc.buffer.drop (inc.buffer_len + copied)) :
    Incomplete.tryCompleteOffsets inc I =
      match runUtf8Validation (inc.buffer.take inc.buffer_len ++ I.take copied) with
      | none => some (⟨buffer1, inc.buffer_len + copied⟩, copied, some true)
      | some (v, e) =>
        if 0 < v then some (⟨buffer1, v⟩, v - inc.buffer_len, some true)
        else match e with
          | some k => some (⟨buffer1, k⟩, k - inc.buffer_len, some false)
          | none => some (⟨buffer1, inc.buffer_len + copied⟩, copied, none) := by
  obtain ⟨h4, hwf2⟩ := hwf
  have hn4 : inc.buffer_len ≤ 4 := by
    rcases hwf2 with h0 | ⟨_, h3, _⟩ <;> omega
  have hcop : copied ≤ I.length := by omega
  have hAlen : (inc.buffer.take inc.buffer_len).length = inc.buffer_len := by
    rw [List.length_take]; omega
  have hIlen : (I.take copied).length = copied := by
    rw [List.length_take]; omega
  have hspl : buffer1.take (inc.buffer_len + copied)
      = inc.buffer.take inc.buffer_len ++ I.take copied := by
    rw [hb1]
    exact List.take_left' (by rw [List.length_append, hAlen, hIlen])
  have hslen : (inc.buffer.take inc.buffer_len ++ I.take copied).length
      = inc.buffer_len + copied := by
    rw [List.length_append, hAlen, hIlen]
  simp only [Incomplete.tryCompleteOffsets, h4]
  rw [if_pos (by omega : inc.buffer_len ≤ 4), ← hc, ← hb1, hspl, hslen]
  cases hval : runUtf8Validation
      (inc.buffer.take inc.buffer_len ++ I.take copied) with
  | none => rfl
  | some p =>
    obtain ⟨v, e⟩ := p
    have hfacts := wf_val_facts inc I ⟨h4, hwf2⟩ hval
    dsimp only
    by_cases hv0 : 0 < v
    · rw [if_pos hv0, if_pos (hfacts.1 hv0), if_pos hv0]
    · rw [if_neg hv0, if_neg hv0]
      cases e with
      | none => rfl
      | some k =>
        dsimp only
        rw [if_pos (hfacts.2 (by omega) k rfl)]

/-- Full behavioural case analysis of `try_complete` on a well-formed state:
it never panics and resolves to Completed text, a Rejected invalid sequence,
or StillIncomplete, with exact byte accounting against `bytes ++ input`. -/
theorem tryComplete_cases (inc : Incomplete) (I : List Nat) (hwf : IncWf inc)
    {copied : Nat} (hc : copied = min (4 - inc.buffer_len) I.length) :
    ∃ st r, Incomplete.tryComplete inc I = some (st, r) ∧
      st.buffer.length = 4 ∧
      ((∃ m, m ≤ copied ∧ st.buffer_len = 0 ∧
          r = some (.text (inc.bytes ++ I.take m), I.drop m) ∧
          runUtf8Validation (inc.bytes ++ I.take m) = none ∧
          (∀ j, inc.buffer_len + m < j → j ≤ inc.buffer_len + copied →
            runUtf8Validation ((inc.bytes ++ I.take copied).take j) ≠ none)) ∨
       (∃ m, m ≤ copied ∧ st.buffer_len = 0 ∧
          r = some (.invalid (inc.bytes ++ I.take m), I.drop m) ∧
          runUtf8Validation (inc.bytes ++ I.take copied) =
            some (0, some (inc.buffer_len + m))) ∨
       (r = none ∧ IncWf st ∧ 1 ≤ st.buffer_len ∧ copied = I.length ∧
          st.bytes = inc.bytes ++ I)) := by
  obtain ⟨h4, hwf2⟩ := hwf
  have hn4 : inc.buffer_len ≤ 4 := by
    rcases hwf2 with h0 | ⟨_, h3, _⟩ <;> omega
  have hcop : copied ≤ I.length := by omega
  have hcle : copied ≤ 4 - inc.buffer_len := by omega
  have hAlen : (inc.buffer.take inc.buffer_len).length = inc.buffer_len := by
    rw [List.length_take]; omega
  have hIlen : (I.take copied).length = copied := by
    rw [List.length_take]; omega
  have hslen : (inc.buffer.take inc.buffer_len ++ I.take copied).length
      = inc.buffer_len + copied := by
    rw [List.length_append, hAlen, hIlen]
  have hb1len : (inc.buffer.take inc.buffer_len ++ I.take copied
      ++ inc.buffer.drop (inc.buffer_len + copied)).length = 4 := by
    simp [hAlen, hIlen, List.length_drop, h4]
    omega
  have hStake : (inc.buffer.take inc.buffer_len ++ I.take copied
      ++ inc.buffer.drop (inc.buffer_len + copied)).take (inc.buffer_len + copied)
      = inc.buffer.take inc.buffer_len ++ I.take copied :=
    List.take_left' hslen
  have hbytesA : inc.bytes = inc.buffer.take inc.buffer_len := rfl
  have hoff := tryCompleteOffsets_spec inc I ⟨h4, hwf2⟩ hc rfl
  simp only [Incomplete.tryComplete]
  rw [hoff]
  cases hval : runUtf8Validation
      (inc.buffer.take inc.buffer_len ++ I.take copied) with
  | none =>
    dsimp only
    rw [if_pos hcop]
    refine ⟨_, _, rfl, hb1len, Or.inl ⟨copied, le_refl _, rfl, ?_, ?_, ?_⟩⟩
    · dsimp only
      rw [hStake, hbytesA]
      rfl
    · rw [hbytesA]
      exact hval
    · intro j hj1 hj2
      omega
  | some p =>
    obtain ⟨v, e⟩ := p
    have hfacts := wf_val_facts inc I ⟨h4, hwf2⟩ hval
    have hbd := validation_bounds _ v e hval
    rw [hslen] at hbd
    dsimp only
    by_cases hv0 : 0 < v
    · rw [if_pos hv0]
      dsimp only
      have hvn : inc.buffer_len ≤ v := hfacts.1 hv0
      rw [if_pos (by omega : v - inc.buffer_len ≤ I.length)]
      have htk0 := @take_append_take (inc.buffer.take inc.buffer_len) I
        (v - inc.buffer_len) copied (by omega)
      rw [hAlen] at htk0
      have hveq : inc.buffer_len + (v - inc.buffer_len) = v := by omega
      rw [hveq] at htk0
      refine ⟨_, _, rfl, hb1len,
        Or.inl ⟨v - inc.buffer_len, by omega, rfl, ?_, ?_, ?_⟩⟩
      · dsimp only
        rw [List.take_append_of_le_length (by omega), htk0, hbytesA]
        rfl
      · have hsp := (validation_split _ v e hval).1
        rw [htk0] at hsp
        rw [hbytesA]
        exact hsp
      · intro j hj1 hj2
        rw [hbytesA]
        exact validation_boundary_max hval (by omega) (by rw [hslen]; omega)
    · rw [if_neg hv0]
      obtain rfl : v = 0 := by omega
      cases e with
      | some k =>
        dsimp only
        have hkn : inc.buffer_len ≤ k := hfacts.2 rfl k rfl
        have hkb := hbd.2.1 k rfl
        rw [if_pos (by omega : k - inc.buffer_len ≤ I.length)]
        have htk0 := @take_append_take (inc.buffer.take inc.buffer_len) I
          (k - inc.buffer_len) copied (by omega)
        rw [hAlen] at htk0
        have hkeq : inc.buffer_len + (k - inc.buffer_len) = k := by omega
        rw [hkeq] at htk0
        refine ⟨_, _, rfl, hb1len,
          Or.inr (Or.inl ⟨k - inc.buffer_len, by omega, rfl, ?_, ?_⟩)⟩
        · dsimp only
          rw [List.take_append_of_le_length (by omega), htk0, hbytesA]
          rfl
        · rw [hbytesA, hkeq]
          exact hval
      | none =>
        dsimp only
        have hlen3 := hbd.2.2 rfl
        have hcI : copied = I.length := by omega
        refine ⟨_, _, rfl, hb1len, Or.inr (Or.inr ⟨rfl, ?_, ?_, hcI, ?_⟩)⟩
        · refine ⟨hb1len, Or.inr ⟨(by omega : 1 ≤ inc.buffer_len + copied),
            (by omega : inc.buffer_len + copied ≤ 3), ?_⟩⟩
          show runUtf8Validation ((inc.buffer.take inc.buffer_len ++ I.take copied
            ++ inc.buffer.drop (inc.buffer_len + copied)).take
              (inc.buffer_len + copied)) = some (0, none)
          rw [hStake]
          exact hval
        · exact (by omega : 1 ≤ inc.buffer_len + copied)
        · show (inc.buffer.take inc.buffer_len ++ I.take copied
            ++ inc.buffer.drop (inc.buffer_len + copied)).take
              (inc.buffer_len + copied) = inc.bytes ++ I
          rw [hStake, hbytesA, hcI, List.take_length]

/-- With only the type-level facts safe Rust guarantees (a 4-byte array and
any `buffer_len ≤ 4`), whenever `try_complete_offsets` returns — it can panic
on hand-crafted states — the updated `buffer_len` is again at most 4. -/
theorem tryCompleteOffsets_buffer_len_le (inc : Incomplete) (I : List Nat)
    (h4 : inc.buffer.length = 4) (hlen : inc.buffer_len ≤ 4)
    {st : Incomplete} {c : Nat} {r : Option Bool}
    (h : inc.tryCompleteOffsets I = some (st, c, r)) : st.buffer_len ≤ 4 := by
  simp only [Incomplete.tryCompleteOffsets, h4] at h
  rw [if_pos hlen] at h
  have hc4 : inc.buffer_len + min (4 - inc.buffer_len) I.length ≤ 4 := by omega
  split at h
  case h_1 heq =>
    simp only [Option.some.injEq, Prod.mk.injEq] at h
    obtain ⟨h1, -⟩ := h
    subst h1
    simp only [List.length_take]
    omega
  case h_2 v e heq =>
    have hbd := validation_bounds _ v e heq
    rw [List.length_take] at hbd
    split_ifs at h with hv0 hnv
    · simp only [Option.some.injEq, Prod.mk.injEq] at h
      obtain ⟨h1, -⟩ := h
      subst h1
      have := hbd.1
      dsimp only
      omega
    · split at h
      · rename_i k
        split_ifs at h with hnk
        simp only [Option.some.injEq, Prod.mk.injEq] at h
        obtain ⟨h1, -⟩ := h
        subst h1
        have := hbd.2.1 k rfl
        dsimp only
        omega
      · simp only [Option.some.injEq, Prod.mk.injEq] at h
        obtain ⟨h1, -⟩ := h
        subst h1
        simp only [List.length_take]
        omega

/-- Same as `tryCompleteOffsets_buffer_len_le` one level up: whenever
`try_complete` returns, the state keeps `buffer_len ≤ 4`. -/
theorem tryComplete_buffer_len_le (inc : Incomplete) (I : List Nat)
    (h4 : inc.buffer.length = 4) (hlen : inc.buffer_len ≤ 4)
    {st : Incomplete} {r : Option (CompleteResult × List Nat)}
    (h : inc.tryComplete I = some (st, r)) : st.buffer_len ≤ 4 := by
  simp only [Incomplete.tryComplete] at h
  split at h
  case h_1 => simp at h
  case h_2 st1 c r1 heq =>
    have hb := tryCompleteOffsets_buffer_len_le inc I h4 hlen heq
    split at h
    · simp only [Option.some.injEq, Prod.mk.injEq] at h
      obtain ⟨h1, -⟩ := h
      subst h1
      exact hb
    · split_ifs at h
      all_goals
        simp only [Option.some.injEq, Prod.mk.injEq] at h
        obtain ⟨h1, -⟩ := h
        subst h1
        dsimp only
        omega


/-- The byte encoding of U+FFFD, the `REPLACEMENT_CHARACTER` constant. -/
def replacementChar : List Nat := [0xEF, 0xBF, 0xBD]

/-- Modelled from the spec: whole-buffer lossy decoding, the reference
behaviour (`String::from_utf8_lossy`) that the push decoder must match —
emit each maximal valid run, substitute one replacement character per
reported error, skip the erroring span, and substitute once for a trailing
incomplete sequence. -/
def utf8Lossy (input : List Nat) : List Nat :=
  match h : runUtf8Validation input with
  | none => input
  | some (v, some k) =>
    input.take v ++ replacementChar ++ utf8Lossy (input.drop (v + k))
  | some (v, none) => input.take v ++ replacementChar
termination_by input.length
decreasing_by
  have hb := validation_bounds input v (some k) h
  have hk := hb.2.1 k rfl
  simp only [List.length_drop]
  omega

/-- Modelled from the spec: the decode loop inside the push decoder's `feed`
(spec §4.3, the `lossy` module is not under `src/`): repeatedly `decode`; on
Ok emit the text and stop with an empty continuation; on Invalid emit the
valid prefix then one replacement character and continue on the remaining
input; on Incomplete emit the valid prefix and store the suffix.  The output
is the concatenation of all emissions; a `decode` panic (never reached)
propagates as `none`. -/
def feedLoop (input : List Nat) : Option (List Nat × Incomplete) :=
  match h : decode input with
  | none => none
  | some (.ok text) => some (text, Incomplete.empty)
  | some (.invalid valid_prefix _ remaining_input) =>
    match feedLoop remaining_input with
    | none => none
    | some (out, st) => some ( valid_prefix ++ replacementChar ++ out, st)
  | some (.incomplete valid_prefix incomplete_suffix) =>
    some ( valid_prefix, incomplete_suffix)
termination_by input.length
decreasing_by
  obtain ⟨v, k, hv, -, -, hrem⟩ := decode_invalid_inv h
  have hb := validation_bounds _ v (some k) hv
  have hk := hb.2.1 k rfl
  subst hrem
  simp only [List.length_drop]
  omega

/-- Modelled from the spec: `LossyDecoder::feed` (spec §4.3).  With a pending
continuation, first resolve it against the chunk with `try_complete`:
StillIncomplete consumes the whole chunk; Completed emits the completed text;
Rejected emits one replacement character; in the latter two cases the
unconsumed remainder then goes through the decode loop.  With no pending
continuation the whole chunk goes through the decode loop. -/
def feed (st : Incomplete) (chunk : List Nat) : Option (List Nat × Incomplete) :=
  if st.buffer_len ≠ 0 then
    match st.tryComplete chunk with
    | none => none
    | some (st1, none) => some ([], st1)
    | some (_, some (res, remaining_input)) =>
      match feedLoop remaining_input with
      | none => none
      | some (out, st2) =>
        some ((match res with
          | .text text => text
          | .invalid _ => replacementChar) ++ out, st2)
  else feedLoop chunk

/-- Modelled from the spec: feeding a sequence of chunks in order,
concatenating all callback output. -/
def feedAll (st : Incomplete) (chunks : List (List Nat)) :
    Option (List Nat × Incomplete) :=
  match chunks with
  | [] => some ([], st)
  | c :: rest =>
    match feed st c with
    | none => none
    | some (o, st1) =>
      match feedAll st1 rest with
      | none => none
      | some (o2, st2) => some (o ++ o2, st2)

/-- Modelled from the spec: the finalize emission when the decoder is
dropped — one replacement character if a continuation is pending, nothing
otherwise. -/
def finalizeEmit (st : Incomplete) : List Nat :=
  if st.buffer_len = 0 then [] else replacementChar

theorem utf8Lossy_of_valid {l : List Nat} (h : runUtf8Validation l = none) :
    utf8Lossy l = l := by
  rw [utf8Lossy.eq_def]
  split
  · rfl
  · rename_i v k heq; rw [heq] at h; simp at h
  · rename_i v heq; rw [heq] at h; simp at h

theorem utf8Lossy_of_bad {l : List Nat} {v k : Nat}
    (h : runUtf8Validation l = some (v, some k)) :
    utf8Lossy l = l.take v ++ replacementChar ++ utf8Lossy (l.drop (v + k)) := by
  rw [utf8Lossy.eq_def]
  split
  · rename_i heq; rw [heq] at h; simp at h
  · rename_i v' k' heq
    rw [heq] at h
    simp only [Option.some.injEq, Prod.mk.injEq] at h
    obtain ⟨rfl, h2⟩ := h
    obtain rfl : k' = k := by simpa using h2
    rfl
  · rename_i v' heq
    rw [heq] at h
    simp at h

theorem utf8Lossy_of_short {l : List Nat} {v : Nat}
    (h : runUtf8Validation l = some (v, none)) :
    utf8Lossy l = l.take v ++ replacementChar := by
  rw [utf8Lossy.eq_def]
  split
  · rename_i heq; rw [heq] at h; simp at h
  · rename_i v' k' heq; rw [heq] at h; simp at h
  · rename_i v' heq
    rw [heq] at h
    simp only [Option.some.injEq, Prod.mk.injEq] at h
    obtain ⟨rfl, -⟩ := h
    rfl

theorem feedLoop_ok {input text : List Nat}
    (h : decode input = some (.ok text)) :
    feedLoop input = some (text, Incomplete.empty) := by
  rw [feedLoop.eq_def]
  split <;> rename_i heq <;> rw [heq] at h <;> simp_all

theorem feedLoop_invalid {input vp iv rem : List Nat}
    (h : decode input = some (.invalid vp iv rem)) :
    feedLoop input =
      match feedLoop rem with
      | none => none
      | some (out, st) => some (vp ++ replacementChar ++ out, st) := by
  rw [feedLoop.eq_def]
  split <;> rename_i heq <;> rw [heq] at h <;> simp_all

theorem feedLoop_incomplete {input vp : List Nat} {suf : Incomplete}
    (h : decode input = some (.incomplete vp suf)) :
    feedLoop input = some (vp, suf) := by
  rw [feedLoop.eq_def]
  split <;> rename_i heq <;> rw [heq] at h <;> simp_all


theorem IncWf.bytes_length {inc : Incomplete} (hwf : IncWf inc) :
    inc.bytes.length = inc.buffer_len := by
  obtain ⟨h4, hc⟩ := hwf
  simp only [Incomplete.bytes, List.length_take, h4]
  rcases hc with h | ⟨_, h3, _⟩ <;> omega

/-- Lossy decoding after a fully valid block emits the block verbatim and
continues independently. -/
theorem utf8Lossy_append_valid {a : List Nat} (X : List Nat)
    (h : runUtf8Validation a = none) :
    utf8Lossy (a ++ X) = a ++ utf8Lossy X := by
  have happ := validation_append_valid a X h
  cases hX : runUtf8Validation X with
  | none =>
    rw [hX] at happ
    simp only [shift_none] at happ
    rw [utf8Lossy_of_valid happ, utf8Lossy_of_valid hX]
  | some p =>
    obtain ⟨v, e⟩ := p
    rw [hX] at happ
    simp only [shift_some] at happ
    cases e with
    | some k =>
      rw [utf8Lossy_of_bad happ, utf8Lossy_of_bad hX]
      have hd : a.length + v + k = a.length + (v + k) := by omega
      rw [List.take_append, hd, List.drop_append]
      simp [List.append_assoc]
    | none =>
      rw [utf8Lossy_of_short happ, utf8Lossy_of_short hX]
      rw [List.take_append]
      simp [List.append_assoc]

/-- The decode loop never panics, leaves a well-formed continuation, and its
output is exactly lossy decoding up to the pending bytes, whatever follows. -/
theorem feedLoop_spec : ∀ input : List Nat,
    ∃ o st, feedLoop input = some (o, st) ∧ IncWf st ∧
      ∀ X, o ++ utf8Lossy (st.bytes ++ X) = utf8Lossy (input ++ X)
  | input => by
    cases hv : runUtf8Validation input with
    | none =>
      refine ⟨input, Incomplete.empty, feedLoop_ok (decode_eq_ok hv),
        ⟨rfl, Or.inl rfl⟩, ?_⟩
      intro X
      show input ++ utf8Lossy (Incomplete.empty.bytes ++ X) = utf8Lossy (input ++ X)
      have hemp : Incomplete.empty.bytes = [] := rfl
      rw [hemp, List.nil_append, utf8Lossy_append_valid X hv]
    | some p =>
      obtain ⟨v, e⟩ := p
      cases e with
      | some k =>
        have hdec := decode_eq_invalid hv
        have hb := validation_bounds _ v (some k) hv
        have hk := hb.2.1 k rfl
        have hlt : ((input.drop v).drop k).length < input.length := by
          simp only [List.length_drop]
          omega
        obtain ⟨o1, st1, hfl, hwf1, hout⟩ := feedLoop_spec ((input.drop v).drop k)
        refine ⟨input.take v ++ replacementChar ++ o1, st1, ?_, hwf1, ?_⟩
        · rw [feedLoop_invalid hdec, hfl]
        · intro X
          rw [utf8Lossy_of_bad (validation_append_bad input X v k hv)]
          rw [List.take_append_of_le_length (by omega),
            List.drop_append_of_le_length (by omega)]
          have hdd : input.drop (v + k) = (input.drop v).drop k := by
            rw [List.drop_drop]
          rw [hdd, List.append_assoc _ o1, hout X, List.append_assoc]
      | none =>
        have hdec := decode_eq_incomplete hv
        have hwf1 := decode_incomplete_wf hdec
        have hbytes := decode_incomplete_bytes hdec
        have hble := (validation_bounds _ v none hv).2.2 rfl
        have hvlen : (input.take v).length = v := by
          rw [List.length_take]; omega
        refine ⟨input.take v, _, feedLoop_incomplete hdec, hwf1, ?_⟩
        intro X
        rw [hbytes.1, hvlen]
        have hsplit : input ++ X = input.take v ++ (input.drop v ++ X) := by
          rw [← List.append_assoc, List.take_append_drop]
        rw [hsplit, utf8Lossy_append_valid _ (validation_split _ v none hv).1]
termination_by input => input.length
decreasing_by
  exact hlt

/-- One `feed` call on a well-formed state never panics, keeps the state
well-formed, and its output is exactly lossy decoding of
`pending bytes ++ chunk` up to the new pending bytes, whatever follows. -/
theorem feed_spec (st : Incomplete) (c : List Nat) (hwf : IncWf st) :
    ∃ o st2, feed st c = some (o, st2) ∧ IncWf st2 ∧
      ∀ X, o ++ utf8Lossy (st2.bytes ++ X) = utf8Lossy (st.bytes ++ c ++ X) := by
  by_cases hp : st.buffer_len = 0
  · obtain ⟨o, st2, hfl, hwf2, hout⟩ := feedLoop_spec c
    refine ⟨o, st2, ?_, hwf2, ?_⟩
    · rw [feed, if_neg (by omega)]
      exact hfl
    · intro X
      have hb : st.bytes = [] := by simp [Incomplete.bytes, hp]
      rw [hb, List.nil_append]
      exact hout X
  · have hBlen : st.bytes.length = st.buffer_len := hwf.bytes_length
    obtain ⟨st1, r, htc, h4', hcase⟩ := tryComplete_cases st c hwf rfl
    rcases hcase with ⟨m, hm, hbl0, hr, hvalid, hmax⟩ |
      ⟨m, hm, hbl0, hr, hbad⟩ | ⟨hr, hwf1, hge1, hcI, hbytes⟩
    · subst hr
      have hmc : m ≤ c.length := by omega
      obtain ⟨o2, st2, hfl, hwf2, hout⟩ := feedLoop_spec (c.drop m)
      refine ⟨st.bytes ++ c.take m ++ o2, st2, ?_, hwf2, ?_⟩
      · rw [feed, if_pos hp, htc]
        dsimp only
        rw [hfl]
      · intro X
        have hlist : st.bytes ++ c ++ X
            = (st.bytes ++ c.take m) ++ (c.drop m ++ X) := by
          rw [List.append_assoc, List.append_assoc,
            ← List.append_assoc (c.take m), List.take_append_drop]
        rw [hlist, utf8Lossy_append_valid _ hvalid, ← hout X]
        simp [List.append_assoc]
    · subst hr
      have hmc : m ≤ c.length := by omega
      obtain ⟨o2, st2, hfl, hwf2, hout⟩ := feedLoop_spec (c.drop m)
      refine ⟨replacementChar ++ o2, st2, ?_, hwf2, ?_⟩
      · rw [feed, if_pos hp, htc]
        dsimp only
        rw [hfl]
      · intro X
        have hform : st.bytes ++ c.take (min (4 - st.buffer_len) c.length)
            ++ (c.drop (min (4 - st.buffer_len) c.length) ++ X)
            = st.bytes ++ c ++ X := by
          rw [List.append_assoc st.bytes (c.take (min (4 - st.buffer_len) c.length)),
            ← List.append_assoc (c.take (min (4 - st.buffer_len) c.length)),
            List.take_append_drop, ← List.append_assoc]
        have hval2 := validation_append_bad _
          (c.drop (min (4 - st.buffer_len) c.length) ++ X) _ _ hbad
        rw [hform] at hval2
        rw [utf8Lossy_of_bad hval2, List.take_zero, List.nil_append]
        have hd1 : (st.bytes ++ c ++ X).drop (0 + (st.buffer_len + m))
            = (st.bytes ++ c).drop (st.buffer_len + m) ++ X := by
          rw [Nat.zero_add]
          exact List.drop_append_of_le_length (by rw [List.length_append]; omega)
        have hd2 : (st.bytes ++ c).drop (st.buffer_len + m) = c.drop m := by
          rw [← hBlen, List.drop_append]
        rw [hd1, hd2, List.append_assoc, hout X]
    · subst hr
      refine ⟨[], st1, ?_, hwf1, ?_⟩
      · rw [feed, if_pos hp, htc]
      · intro X
        rw [List.nil_append, hbytes]

/-- Feeding any chunk list from a well-formed state never panics and the
total output is lossy decoding of everything up to the final pending bytes. -/
theorem feedAll_spec : ∀ (chunks : List (List Nat)) (st : Incomplete),
    IncWf st →
    ∃ o st2, feedAll st chunks = some (o, st2) ∧ IncWf st2 ∧
      ∀ X, o ++ utf8Lossy (st2.bytes ++ X)
        = utf8Lossy (st.bytes ++ (chunks.flatten ++ X))
  | [], st, hwf => by
    refine ⟨[], st, rfl, hwf, ?_⟩
    intro X
    simp
  | c :: rest, st, hwf => by
    obtain ⟨o1, st1, hf, hwf1, hout1⟩ := feed_spec st c hwf
    obtain ⟨o2, st2, hfa, hwf2, hout2⟩ := feedAll_spec rest st1 hwf1
    refine ⟨o1 ++ o2, st2, ?_, hwf2, ?_⟩
    · rw [feedAll, hf]
      dsimp only
      rw [hfa]
    · intro X
      rw [List.append_assoc o1, hout2 X]
      have h1 := hout1 (rest.flatten ++ X)
      rw [List.append_assoc] at h1
      rw [h1]
      simp [List.append_assoc, List.flatten]


/-- C3: fragmentation independence of the push decoder.  For every byte
sequence presented as any ordered list of chunks (the single-chunk split
included), feeding the chunks to the `LossyDecoder` and concatenating all
callback-emitted text plus the finalize emission equals whole-buffer lossy
decoding of the concatenated bytes — and no call panics. -/
theorem lossyDecoder_fragmentation_independence (chunks : List (List Nat)) :
    ∃ out st, feedAll Incomplete.empty chunks = some (out, st) ∧
      out ++ finalizeEmit st = utf8Lossy chunks.flatten := by
  obtain ⟨o, st2, hfa, hwf2, hout⟩ :=
    feedAll_spec chunks Incomplete.empty ⟨rfl, Or.inl rfl⟩
  refine ⟨o, st2, hfa, ?_⟩
  have h0 := hout []
  have hemp : Incomplete.empty.bytes = [] := rfl
  rw [hemp] at h0
  simp only [List.append_nil, List.nil_append] at h0
  have hfin : utf8Lossy st2.bytes = finalizeEmit st2 := by
    obtain ⟨h4, hcase⟩ := hwf2
    rcases hcase with h0' | ⟨h1', h3', hval⟩
    · have hbe : st2.bytes = [] := by simp [Incomplete.bytes, h0']
      rw [hbe, utf8Lossy_of_valid (show runUtf8Validation [] = none from rfl),
        finalizeEmit, if_pos h0']
    · rw [utf8Lossy_of_short hval, List.take_zero, List.nil_append,
        finalizeEmit, if_neg (by omega)]
  rw [hfin] at h0
  exact h0

/-- C1: for every byte slice, decode's valid-prefix boundary equals the
boundary std-style whole-buffer validation (`str::from_utf8`) reports, the
classification is Invalid exactly when the reference validator reports a
known erroring-span length — `invalid_sequence` exactly that many bytes
long — and Incomplete exactly when it reports no error length (error at the
end of input). -/
theorem decode_agrees_with_reference (input : List Nat) :
    match decode input with
    | some (.ok _) => runUtf8Validation input = none
    | some (.invalid vp iv _) =>
        runUtf8Validation input = some (vp.length, some iv.length)
    | some (.incomplete vp _) =>
        runUtf8Validation input = some (vp.length, none)
    | none => False := by
  cases hd : decode input with
  | none =>
    have hs := decode_isSome input
    rw [hd] at hs
    simp at hs
  | some r =>
    cases r with
    | ok text => exact (decode_ok_inv hd).1
    | invalid vp iv rem =>
      obtain ⟨v, k, hv, hvp, hiv, -⟩ := decode_invalid_inv hd
      have hb := validation_bounds _ v (some k) hv
      have hk := hb.2.1 k rfl
      subst hvp hiv
      dsimp only
      have h1 : (input.take v).length = v := by
        rw [List.length_take]; omega
      have h2 : ((input.drop v).take k).length = k := by
        rw [List.length_take, List.length_drop]; omega
      rw [h1, h2]
      exact hv
    | incomplete vp inc =>
      obtain ⟨v, hv, hvp, -⟩ := decode_incomplete_inv hd
      have hb := (validation_bounds _ v none hv).2.2 rfl
      subst hvp
      dsimp only
      have h1 : (input.take v).length = v := by
        rw [List.length_take]; omega
      rw [h1]
      exact hv

/-- C2: for every byte slice given to decode, on `Err(Invalid)` the
concatenation `valid_prefix ++ invalid_sequence ++ remaining_input` equals
the input byte for byte and the lengths sum to the input length, with
`invalid_sequence` never empty; on `Err(Incomplete)` the concatenation
`valid_prefix ++ buffer[..buffer_len]` equals the input byte for byte. -/
theorem decode_coverage (input : List Nat) :
    match decode input with
    | some (.invalid vp iv rem) =>
        vp ++ iv ++ rem = input ∧
          vp.length + iv.length + rem.length = input.length ∧ iv ≠ []
    | some (.incomplete vp suf) =>
        vp ++ suf.buffer.take suf.buffer_len = input ∧
          vp.length + suf.buffer_len = input.length
    | _ => True := by
  cases hd : decode input with
  | none => trivial
  | some r =>
    cases r with
    | ok text => trivial
    | invalid vp iv rem =>
      obtain ⟨v, k, hv, hvp, hiv, hrem⟩ := decode_invalid_inv hd
      have hb := validation_bounds _ v (some k) hv
      have hk := hb.2.1 k rfl
      subst hvp hiv hrem
      dsimp only
      refine ⟨?_, ?_, ?_⟩
      · rw [List.append_assoc, List.take_append_drop, List.take_append_drop]
      · simp only [List.length_take, List.length_drop]
        omega
      · apply List.ne_nil_of_length_pos
        rw [List.length_take, List.length_drop]
        omega
    | incomplete vp suf =>
      have hbytes := decode_incomplete_bytes hd
      obtain ⟨v, hv, hvp, -⟩ := decode_incomplete_inv hd
      have hb := (validation_bounds _ v none hv).2.2 rfl
      have hwf := decode_incomplete_wf hd
      have h1 : vp.length = v := by
        rw [hvp, List.length_take]; omega
      dsimp only
      constructor
      · show vp ++ suf.bytes = input
        rw [hbytes.1, h1, hvp, List.take_append_drop]
      · have hl := hwf.bytes_length
        have h2 : suf.bytes.length = input.length - vp.length := by
          rw [hbytes.1, List.length_drop]
        omega

/-- C4: try_complete accounts for bytes with no gaps or overlaps.  For every
Incomplete produced by decode (holding bytes `B`) and every new input `I`:
on `Some((result, remaining_input))` the result's bytes concatenated with
`remaining_input` equal `B ++ I`; on `None` the buffer afterwards holds
exactly `B` followed by the first `min(4 - |B|, |I|)` bytes of `I`, all of
which were consumed. -/
theorem tryComplete_accounting (input0 vp : List Nat) (inc : Incomplete)
    (hdec : decode input0 = some (.incomplete vp inc)) (I : List Nat) :
    ∃ st r, Incomplete.tryComplete inc I = some (st, r) ∧
      (∀ t rem, r = some (.text t, rem) → t ++ rem = inc.bytes ++ I) ∧
      (∀ bad rem, r = some (.invalid bad, rem) → bad ++ rem = inc.bytes ++ I) ∧
      (r = none →
        st.bytes = inc.bytes ++ I.take (min (4 - inc.buffer_len) I.length) ∧
        I.take (min (4 - inc.buffer_len) I.length) = I) := by
  have hwf := decode_incomplete_wf hdec
  obtain ⟨st, r, htc, -, hcase⟩ := tryComplete_cases inc I hwf rfl
  refine ⟨st, r, htc, ?_, ?_, ?_⟩
  · intro t rem hr
    rcases hcase with ⟨m, hm, -, hr', -, -⟩ | ⟨m, hm, -, hr', -⟩ | ⟨hr', -⟩ <;>
      rw [hr'] at hr <;> simp_all
    obtain ⟨h1, h2⟩ := hr
    subst h1
    subst h2
    rw [List.append_assoc, List.take_append_drop]
  · intro bad rem hr
    rcases hcase with ⟨m, hm, -, hr', -, -⟩ | ⟨m, hm, -, hr', -⟩ | ⟨hr', -⟩ <;>
      rw [hr'] at hr <;> simp_all
    obtain ⟨h1, h2⟩ := hr
    subst h1
    subst h2
    rw [List.append_assoc, List.take_append_drop]
  · intro hr
    rcases hcase with ⟨m, hm, -, hr', -, -⟩ | ⟨m, hm, -, hr', -⟩ |
      ⟨hr', -, -, hcI, hbytes⟩ <;> rw [hr'] at hr <;> simp_all

/-- C4 witness at a concrete instance: the suffix decode packages for
`[0xC3]` then completed with `[0xA9]`. -/
theorem tryComplete_accounting_witness :
    decode [0xC3] = some (.incomplete [] ⟨[0xC3, 0, 0, 0], 1⟩) ∧
    ∃ st r, Incomplete.tryComplete ⟨[0xC3, 0, 0, 0], 1⟩ [0xA9] = some (st, r) ∧
      (∀ t rem, r = some (.text t, rem) →
        t ++ rem = (⟨[0xC3, 0, 0, 0], 1⟩ : Incomplete).bytes ++ [0xA9]) ∧
      (∀ bad rem, r = some (.invalid bad, rem) →
        bad ++ rem = (⟨[0xC3, 0, 0, 0], 1⟩ : Incomplete).bytes ++ [0xA9]) ∧
      (r = none →
        st.bytes = (⟨[0xC3, 0, 0, 0], 1⟩ : Incomplete).bytes
          ++ [0xA9].take (min (4 - 1) 1) ∧
        [0xA9].take (min (4 - 1) 1) = [0xA9]) :=
  ⟨by decide, tryComplete_accounting [0xC3] [] ⟨[0xC3, 0, 0, 0], 1⟩
    (by decide) [0xA9]⟩


/-- C5 counterexample: `try_complete` CAN panic when the public fields are
set directly in safe Rust: with `buffer_len = 5` the slice
`&mut self.buffer[5..]` of the 4-byte array is out of range, and
`Incomplete::new` with 5 bytes indexes `buffer[..5]` out of range; `none`
models the panic. -/
theorem tryComplete_panic_on_forged_state :
    Incomplete.tryComplete ⟨[0, 0, 0, 0], 5⟩ [] = none ∧
    Incomplete.new [1, 2, 3, 4, 5] = none := by decide

/-- C5 amended: decode never panics on any input, and `Incomplete::new` and
`try_complete` never panic on the states the library itself produces: `new`
for at most 4 bytes, `try_complete` for every well-formed state (buffered
bytes empty or a consistent incomplete codepoint prefix, as `decode` and
`try_complete` create).  A panic remains possible only for hand-crafted
public-field values such as `buffer_len = 5`. -/
theorem no_panic_on_reachable_states :
    (∀ input, (decode input).isSome) ∧
    (∀ bytes, bytes.length ≤ 4 → (Incomplete.new bytes).isSome) ∧
    (∀ inc I, IncWf inc → (Incomplete.tryComplete inc I).isSome) := by
  refine ⟨decode_isSome, ?_, ?_⟩
  · intro bytes h
    simp [Incomplete.new, h]
  · intro inc I hwf
    obtain ⟨st, r, htc, -⟩ := tryComplete_cases inc I hwf rfl
    rw [htc]
    rfl

theorem no_panic_on_reachable_states_witness :
    ([0xC3] : List Nat).length ≤ 4 ∧ IncWf ⟨[0xC3, 0, 0, 0], 1⟩ ∧
    (Incomplete.new [0xC3]).isSome ∧
    (Incomplete.tryComplete ⟨[0xC3, 0, 0, 0], 1⟩ [0xA9]).isSome :=
  ⟨by decide, by decide,
    no_panic_on_reachable_states.2.1 [0xC3] (by decide),
    no_panic_on_reachable_states.2.2 ⟨[0xC3, 0, 0, 0], 1⟩ [0xA9] (by decide)⟩

/-- C6 counterexample: when resolving to Rejected the invalid-sequence value
is NOT always exactly the previously buffered bytes: `decode [0xF0]` buffers
`[0xF0]`, and `try_complete` with `[0x90, 0xFF]` consumes `0x90` and rejects
with invalid sequence `[0xF0, 0x90]`. -/
theorem rejected_bytes_cex :
    decode [0xF0] = some (.incomplete [] ⟨[0xF0, 0, 0, 0], 1⟩) ∧
    (⟨[0xF0, 0, 0, 0], 1⟩ : Incomplete).bytes = [0xF0] ∧
    Incomplete.tryComplete ⟨[0xF0, 0, 0, 0], 1⟩ [0x90, 0xFF] =
      some (⟨[0xF0, 0x90, 0xFF, 0], 0⟩,
        some (.invalid [0xF0, 0x90], [0xFF])) ∧
    ¬ ([0xF0, 0x90] = [0xF0]) := by decide

/-- C6 amended: whenever try_complete resolves to Rejected, the returned
invalid-sequence value consists of the bytes buffered before the call
followed by the new input bytes the call consumed, and remaining_input is
the suffix of the new input after the consumed count. -/
theorem rejected_invalid_accounting (input0 vp I : List Nat) (inc : Incomplete)
    (hdec : decode input0 = some (.incomplete vp inc))
    {st : Incomplete} {bad rem : List Nat}
    (h : Incomplete.tryComplete inc I = some (st, some (.invalid bad, rem))) :
    ∃ n, n ≤ I.length ∧ bad = inc.bytes ++ I.take n ∧ rem = I.drop n := by
  have hwf := decode_incomplete_wf hdec
  obtain ⟨st', r', htc, -, hcase⟩ := tryComplete_cases inc I hwf rfl
  rw [htc] at h
  rcases hcase with ⟨m, hm, -, hr', -, -⟩ | ⟨m, hm, -, hr', -⟩ | ⟨hr', -⟩
  · subst hr'
    simp at h
  · subst hr'
    simp only [Option.some.injEq, Prod.mk.injEq,
      CompleteResult.invalid.injEq] at h
    obtain ⟨-, h2, h3⟩ := h
    refine ⟨m, ?_, h2.symm, h3.symm⟩
    omega
  · subst hr'
    simp at h

theorem rejected_invalid_accounting_witness :
    decode [0xF0] = some (.incomplete [] ⟨[0xF0, 0, 0, 0], 1⟩) ∧
    ∃ n, n ≤ ([0x90, 0xFF] : List Nat).length ∧
      [0xF0, 0x90] = (⟨[0xF0, 0, 0, 0], 1⟩ : Incomplete).bytes
        ++ [0x90, 0xFF].take n ∧
      [0xFF] = [0x90, 0xFF].drop n :=
  ⟨by decide, rejected_invalid_accounting [0xF0] [] [0x90, 0xFF]
    ⟨[0xF0, 0, 0, 0], 1⟩ (by decide)
    (show Incomplete.tryComplete ⟨[0xF0, 0, 0, 0], 1⟩ [0x90, 0xFF]
      = some (⟨[0xF0, 0x90, 0xFF, 0], 0⟩,
        some (.invalid [0xF0, 0x90], [0xFF])) by decide)⟩

/-- C7: whenever decode returns Err(Incomplete), the incomplete suffix's
`buffer_len` is 1, 2 or 3 — never 0 and never 4 or more. -/
theorem incomplete_suffix_len {input vp : List Nat} {suf : Incomplete}
    (h : decode input = some (.incomplete vp suf)) :
    1 ≤ suf.buffer_len ∧ suf.buffer_len ≤ 3 := by
  obtain ⟨v, hv, -, hinc⟩ := decode_incomplete_inv h
  have hb := (validation_bounds _ v none hv).2.2 rfl
  subst hinc
  dsimp only
  rw [List.length_drop]
  omega

theorem incomplete_suffix_len_witness :
    1 ≤ (⟨[0xC3, 0, 0, 0], 1⟩ : Incomplete).buffer_len ∧
      (⟨[0xC3, 0, 0, 0], 1⟩ : Incomplete).buffer_len ≤ 3 :=
  incomplete_suffix_len
    (show decode [0xC3] = some (.incomplete [] ⟨[0xC3, 0, 0, 0], 1⟩) by decide)

/-- C8: for every input that is well-formed UTF-8 (the empty slice
included), decode returns Ok with text whose bytes are identical to the
input. -/
theorem decode_roundtrip_on_valid (input : List Nat)
    (h : runUtf8Validation input = none) :
    decode input = some (.ok input) :=
  decode_eq_ok h

theorem decode_roundtrip_on_valid_witness :
    runUtf8Validation [] = none ∧ decode [] = some (.ok []) ∧
    runUtf8Validation [0x68, 0xC3, 0xA9] = none ∧
    decode [0x68, 0xC3, 0xA9] = some (.ok [0x68, 0xC3, 0xA9]) :=
  ⟨by decide, decode_roundtrip_on_valid [] (by decide),
   by decide, decode_roundtrip_on_valid [0x68, 0xC3, 0xA9] (by decide)⟩

/-- C9: every operation on the continuation value preserves
`buffer_len ≤ 4`: `empty` establishes it, `new` preserves it for any input
of at most 4 bytes, and `try_complete` preserves it for every `Incomplete`
satisfying it (with the type-guaranteed 4-byte buffer) whenever it
returns. -/
theorem buffer_len_le_four_invariant :
    Incomplete.empty.buffer_len ≤ 4 ∧
    (∀ bytes inc, bytes.length ≤ 4 → Incomplete.new bytes = some inc →
      inc.buffer_len ≤ 4) ∧
    (∀ inc I st r, inc.buffer_len ≤ 4 → inc.buffer.length = 4 →
      Incomplete.tryComplete inc I = some (st, r) → st.buffer_len ≤ 4) := by
  refine ⟨by decide, ?_, ?_⟩
  · intro bytes inc hlen hnew
    simp only [Incomplete.new, if_pos hlen, Option.some.injEq] at hnew
    obtain rfl := hnew
    exact hlen
  · intro inc I st r h1 h2 h3
    exact tryComplete_buffer_len_le inc I h2 h1 h3

theorem buffer_len_le_four_invariant_witness :
    ([0xC3] : List Nat).length ≤ 4 ∧
    (⟨[0xC3, 0, 0, 0], 1⟩ : Incomplete).buffer_len ≤ 4 ∧
    (⟨[0xC3, 0xA9, 0x41, 0x42], 0⟩ : Incomplete).buffer_len ≤ 4 :=
  ⟨by decide,
   buffer_len_le_four_invariant.2.1 [0xC3] ⟨[0xC3, 0, 0, 0], 1⟩
     (by decide) (by decide),
   buffer_len_le_four_invariant.2.2 ⟨[0xC3, 0, 0, 0], 1⟩ [0xA9, 0x41, 0x42]
     ⟨[0xC3, 0xA9, 0x41, 0x42], 0⟩
     (some (.text [0xC3, 0xA9, 0x41, 0x42], [])) (by decide) (by decide)
     (by decide)⟩

/-- C10: the Completed text from try_complete can contain more than the one
completed codepoint: it is the longest well-formed prefix of the combined
(at most 4-byte) spliced buffer, and in particular an `Incomplete` holding
`[0xC3]` extended with `[0xA9, 0x41, 0x42]` completes to the text bytes of
"éAB" (`[0xC3, 0xA9, 0x41, 0x42]`) with empty remaining input — the
trailing ASCII bytes that fit in the buffer are included in the text rather
than returned as unconsumed input. -/
theorem completed_text_longest_prefix :
    (∀ input0 vp I inc st t rem,
      decode input0 = some (.incomplete vp inc) →
      Incomplete.tryComplete inc I = some (st, some (.text t, rem)) →
      ∃ m, m ≤ min (4 - inc.buffer_len) I.length ∧
        t = (inc.bytes ++ I.take (min (4 - inc.buffer_len) I.length)).take
          (inc.buffer_len + m) ∧
        rem = I.drop m ∧ runUtf8Validation t = none ∧
        ∀ j, inc.buffer_len + m < j →
          j ≤ inc.buffer_len + min (4 - inc.buffer_len) I.length →
          runUtf8Validation ((inc.bytes
            ++ I.take (min (4 - inc.buffer_len) I.length)).take j) ≠ none) ∧
    Incomplete.tryComplete ⟨[0xC3, 0, 0, 0], 1⟩ [0xA9, 0x41, 0x42] =
      some (⟨[0xC3, 0xA9, 0x41, 0x42], 0⟩,
        some (.text [0xC3, 0xA9, 0x41, 0x42], [])) := by
  constructor
  · intro input0 vp I inc st t rem hdec h
    have hwf := decode_incomplete_wf hdec
    have hBlen := hwf.bytes_length
    obtain ⟨st', r', htc, -, hcase⟩ := tryComplete_cases inc I hwf rfl
    rw [htc] at h
    rcases hcase with ⟨m, hm, -, hr', hvalid, hmax⟩ |
      ⟨m, hm, -, hr', -⟩ | ⟨hr', -⟩
    · subst hr'
      simp only [Option.some.injEq, Prod.mk.injEq,
        CompleteResult.text.injEq] at h
      obtain ⟨-, h2, h3⟩ := h
      subst h2
      subst h3
      refine ⟨m, hm, ?_, rfl, hvalid, hmax⟩
      have ht := @take_append_take inc.bytes I m
        (min (4 - inc.buffer_len) I.length) hm
      rw [hBlen] at ht
      exact ht.symm
    · subst hr'
      simp at h
    · subst hr'
      simp at h
  · decide

theorem completed_text_longest_prefix_witness :
    ∃ m, m ≤ min (4 - (⟨[0xC3, 0, 0, 0], 1⟩ : Incomplete).buffer_len)
        ([0xA9, 0x41, 0x42] : List Nat).length ∧
      ([0xC3, 0xA9, 0x41, 0x42] : List Nat)
        = ((⟨[0xC3, 0, 0, 0], 1⟩ : Incomplete).bytes
          ++ [0xA9, 0x41, 0x42].take
            (min (4 - (⟨[0xC3, 0, 0, 0], 1⟩ : Incomplete).buffer_len)
              ([0xA9, 0x41, 0x42] : List Nat).length)).take
          ((⟨[0xC3, 0, 0, 0], 1⟩ : Incomplete).buffer_len + m) ∧
      ([] : List Nat) = [0xA9, 0x41, 0x42].drop m ∧
      runUtf8Validation [0xC3, 0xA9, 0x41, 0x42] = none ∧
      ∀ j, (⟨[0xC3, 0, 0, 0], 1⟩ : Incomplete).buffer_len + m < j →
        j ≤ (⟨[0xC3, 0, 0, 0], 1⟩ : Incomplete).buffer_len
          + min (4 - (⟨[0xC3, 0, 0, 0], 1⟩ : Incomplete).buffer_len)
            ([0xA9, 0x41, 0x42] : List Nat).length →
        runUtf8Validation (((⟨[0xC3, 0, 0, 0], 1⟩ : Incomplete).bytes
          ++ [0xA9, 0x41, 0x42].take
            (min (4 - (⟨[0xC3, 0, 0, 0], 1⟩ : Incomplete).buffer_len)
              ([0xA9, 0x41, 0x42] : List Nat).length)).take j) ≠ none :=
  completed_text_longest_prefix.1 [0xC3] [] [0xA9, 0x41, 0x42]
    ⟨[0xC3, 0, 0, 0], 1⟩ ⟨[0xC3, 0xA9, 0x41, 0x42], 0⟩
    [0xC3, 0xA9, 0x41, 0x42] [] (by decide) (by decide)


end Utf8Zero
